import Mathlib

/-!
Verification of the ASL recognizer repository: shallow embedding of
`my_recognizer.py` and `my_model_selectors.py` together with theorems about
the frozen specification claims.

Modelling conventions:
* Python floats (log-likelihoods) are modelled as `ℚ`; `float('-inf')` /
  `float('inf')` sentinels are modelled by `Option ℚ` accumulators where
  `none` stands for the infinite initial value that every real score beats.
* A call that may raise inside a `try` is modelled by an `Option`-valued
  oracle in the environment (`none` = the call raises).
* A Python local variable that may be read before assignment is modelled as
  `Option`-valued state; reading it while `none` (an `UnboundLocalError`)
  makes the embedded function return `Except.error ()`.
-/

set_option autoImplicit false

namespace AslRec

/-- Python `range(a, b)`. -/
def pyRange (a b : ℕ) : List ℕ := (List.range (b - a)).map (a + ·)

/-- Comparison used by maximising scans: `qGt t s` means the new score `t`
beats the current best `s`, i.e. Python `t > s`. -/
def qGt (t s : ℚ) : Bool := decide (s < t)

/-- Comparison used by minimising scans: `qLt t s` means the new score `t`
beats the current best `s`, i.e. Python `t < s`. -/
def qLt (t s : ℚ) : Bool := decide (t < s)

/-- Comparison against an optional current best; `none` is the infinite
initial sentinel (`-inf` for maximisation, `+inf` for minimisation), which
every score beats. -/
def betterO (better : ℚ → ℚ → Bool) (t : ℚ) : Option ℚ → Bool
  | none => true
  | some s => better t s

/-- The entry a strict-improvement left-to-right scan ends up with: the first
entry of the list whose score beats every entry after it and is beaten by no
entry before it (first-seen-wins tie-breaking). -/
def bestFirst {α : Type} (better : ℚ → ℚ → Bool) : List (ℚ × α) → Option (ℚ × α)
  | [] => none
  | (s, x) :: rest =>
    match bestFirst better rest with
    | none => some (s, x)
    | some (t, y) => if better t s then some (t, y) else some (s, x)

/-- Left-to-right strict-improvement scan carrying `(best_score, best_item)`
state, exactly the `if score > best_score` / `if score < best_score` update
pattern of the Python loops. -/
def scanSelS {α : Type} (better : ℚ → ℚ → Bool) :
    List (ℚ × α) → Option ℚ × Option α → Option ℚ × Option α
  | [], st => st
  | (s, x) :: rest, (bs, bm) =>
    if betterO better s bs then scanSelS better rest (some s, some x)
    else scanSelS better rest (bs, bm)

theorem bool_false_of_not {b : Bool} (h : ¬ b = true) : b = false := by
  cases b
  · rfl
  · exact absurd rfl h

theorem scanSelS_append {α : Type} (better : ℚ → ℚ → Bool)
    (l₁ l₂ : List (ℚ × α)) (st : Option ℚ × Option α) :
    scanSelS better (l₁ ++ l₂) st = scanSelS better l₂ (scanSelS better l₁ st) := by
  induction l₁ generalizing st with
  | nil => rfl
  | cons p rest ih =>
    obtain ⟨s, x⟩ := p
    obtain ⟨bs, bm⟩ := st
    simp only [List.cons_append, scanSelS]
    by_cases h : betterO better s bs = true
    · rw [if_pos h, if_pos h]
      exact ih _
    · rw [if_neg h, if_neg h]
      exact ih _

@[simp] theorem betterO_none (better : ℚ → ℚ → Bool) (t : ℚ) :
    betterO better t none = true := rfl

@[simp] theorem betterO_some (better : ℚ → ℚ → Bool) (t s : ℚ) :
    betterO better t (some s) = better t s := rfl

/-- The scan is characterised by `bestFirst`, provided the comparison is
transitive and negatively transitive (true for `<` on `ℚ` in either
direction). -/
theorem scanSelS_spec {α : Type} (better : ℚ → ℚ → Bool)
    (htrans : ∀ a b c, better a b = true → better b c = true → better a c = true)
    (hneg : ∀ a b c, better a b = false → better b c = false → better a c = false) :
    ∀ (l : List (ℚ × α)) (bs : Option ℚ) (bm : Option α),
      scanSelS better l (bs, bm) =
        match bestFirst better l with
        | none => (bs, bm)
        | some (t, y) => if betterO better t bs then (some t, some y) else (bs, bm) := by
  intro l
  induction l with
  | nil => intro bs bm; rfl
  | cons p rest ih =>
    intro bs bm
    obtain ⟨s, x⟩ := p
    cases hrest : bestFirst better rest with
    | none =>
      simp only [scanSelS, bestFirst, hrest]
      by_cases hsb : betterO better s bs = true
      · rw [if_pos hsb, ih (some s) (some x), hrest]
        simp [hsb]
      · rw [if_neg hsb, ih bs bm, hrest]
        simp [hsb]
    | some q =>
      obtain ⟨t, y⟩ := q
      simp only [scanSelS, bestFirst, hrest]
      by_cases hsb : betterO better s bs = true
      · rw [if_pos hsb, ih (some s) (some x), hrest]
        by_cases hts : better t s = true
        · have htb : betterO better t bs = true := by
            cases bs with
            | none => rfl
            | some b => exact htrans t s b hts hsb
          simp only [betterO_some, hts, if_true, htb]
        · simp only [betterO_some, bool_false_of_not hts, Bool.false_eq_true, if_false,
            hsb, if_true]
      · rw [if_neg hsb, ih bs bm, hrest]
        cases bs with
        | none => simp [betterO] at hsb
        | some b =>
          have hsb' : better s b = false := bool_false_of_not (by simpa using hsb)
          by_cases hts : better t s = true
          · rw [if_pos hts]
          · have htb : better t b = false :=
              hneg t s b (bool_false_of_not hts) hsb'
            simp only [betterO_some, bool_false_of_not hts, Bool.false_eq_true, if_false,
              htb, hsb']

theorem qGt_trans : ∀ a b c : ℚ, qGt a b = true → qGt b c = true → qGt a c = true := by
  intro a b c hab hbc
  simp only [qGt, decide_eq_true_eq] at *
  exact lt_trans hbc hab

theorem qGt_negtrans : ∀ a b c : ℚ, qGt a b = false → qGt b c = false → qGt a c = false := by
  intro a b c hab hbc
  simp only [qGt, decide_eq_false_iff_not, not_lt] at *
  exact le_trans hab hbc

theorem qLt_trans : ∀ a b c : ℚ, qLt a b = true → qLt b c = true → qLt a c = true := by
  intro a b c hab hbc
  simp only [qLt, decide_eq_true_eq] at *
  exact lt_trans hab hbc

theorem qLt_negtrans : ∀ a b c : ℚ, qLt a b = false → qLt b c = false → qLt a c = false := by
  intro a b c hab hbc
  simp only [qLt, decide_eq_false_iff_not, not_lt] at *
  exact le_trans hbc hab

theorem bestFirst_eq_none {α : Type} (better : ℚ → ℚ → Bool) :
    ∀ l : List (ℚ × α), bestFirst better l = none → l = [] := by
  intro l h
  cases l with
  | nil => rfl
  | cons p rest =>
    obtain ⟨s, x⟩ := p
    simp only [bestFirst] at h
    cases hrest : bestFirst better rest with
    | none => simp [hrest] at h
    | some q =>
      obtain ⟨t, y⟩ := q
      simp only [hrest] at h
      by_cases hts : better t s = true <;> simp [hts] at h

theorem bestFirst_mem {α : Type} (better : ℚ → ℚ → Bool) :
    ∀ (l : List (ℚ × α)) (p : ℚ × α), bestFirst better l = some p → p ∈ l := by
  intro l
  induction l with
  | nil => intro p h; cases h
  | cons q rest ih =>
    intro p h
    obtain ⟨s, x⟩ := q
    simp only [bestFirst] at h
    cases hrest : bestFirst better rest with
    | none =>
      simp only [hrest] at h
      cases h
      exact List.mem_cons_self _ _
    | some q' =>
      obtain ⟨t, y⟩ := q'
      simp only [hrest] at h
      by_cases hts : better t s = true
      · rw [if_pos hts] at h
        cases h
        exact List.mem_cons_of_mem _ (ih _ hrest)
      · rw [if_neg hts] at h
        cases h
        exact List.mem_cons_self _ _

/-- The winner's score is beaten by no score in the list. -/
theorem bestFirst_not_better {α : Type} (better : ℚ → ℚ → Bool)
    (hirr : ∀ a, better a a = false)
    (hasym : ∀ a b, better a b = true → better b a = false)
    (hneg : ∀ a b c, better a b = false → better b c = false → better a c = false) :
    ∀ (l : List (ℚ × α)) (t : ℚ) (y : α), bestFirst better l = some (t, y) →
      ∀ q ∈ l, better q.1 t = false := by
  intro l
  induction l with
  | nil => intro t y h; cases h
  | cons p rest ih =>
    intro t y h q hq
    obtain ⟨s, x⟩ := p
    simp only [bestFirst] at h
    cases hrest : bestFirst better rest with
    | none =>
      have hnil : rest = [] := bestFirst_eq_none better rest hrest
      simp only [hrest] at h
      cases h
      rcases List.mem_cons.mp hq with h1 | h1
      · rw [h1]; exact hirr _
      · rw [hnil] at h1; cases h1
    | some q' =>
      obtain ⟨t', y'⟩ := q'
      simp only [hrest] at h
      by_cases hts : better t' s = true
      · rw [if_pos hts] at h
        cases h
        rcases List.mem_cons.mp hq with h1 | h1
        · rw [h1]; exact hasym _ _ hts
        · exact ih _ _ hrest q h1
      · rw [if_neg hts] at h
        cases h
        rcases List.mem_cons.mp hq with h1 | h1
        · rw [h1]; exact hirr _
        · have hq' : better q.1 t' = false := ih _ _ hrest q h1
          exact hneg _ _ _ hq' (bool_false_of_not hts)

theorem qGt_irrefl : ∀ a : ℚ, qGt a a = false := by
  intro a; simp [qGt]

theorem qGt_asym : ∀ a b : ℚ, qGt a b = true → qGt b a = false := by
  intro a b h
  simp only [qGt, decide_eq_true_eq, decide_eq_false_iff_not, not_lt] at *
  exact le_of_lt h

theorem qLt_irrefl : ∀ a : ℚ, qLt a a = false := by
  intro a; simp [qLt]

theorem qLt_asym : ∀ a b : ℚ, qLt a b = true → qLt b a = false := by
  intro a b h
  simp only [qLt, decide_eq_true_eq, decide_eq_false_iff_not, not_lt] at *
  exact le_of_lt h

/-- First-seen-wins decomposition for the maximising scan: the list splits
around the winner, entries before it score strictly below it and entries
after it score at most it. -/
theorem bestFirst_split {α : Type} :
    ∀ (l : List (ℚ × α)) (t : ℚ) (y : α), bestFirst qGt l = some (t, y) →
      ∃ pre post, l = pre ++ (t, y) :: post ∧
        (∀ q ∈ pre, q.1 < t) ∧ (∀ q ∈ post, q.1 ≤ t) := by
  intro l
  induction l with
  | nil => intro t y h; cases h
  | cons p rest ih =>
    intro t y h
    obtain ⟨s, x⟩ := p
    simp only [bestFirst] at h
    cases hrest : bestFirst qGt rest with
    | none =>
      have hnil : rest = [] := bestFirst_eq_none qGt rest hrest
      simp only [hrest] at h
      cases h
      refine ⟨[], rest, rfl, by simp, ?_⟩
      rw [hnil]
      simp
    | some q' =>
      obtain ⟨t', y'⟩ := q'
      simp only [hrest] at h
      by_cases hts : qGt t' s = true
      · rw [if_pos hts] at h
        cases h
        obtain ⟨pre, post, hsplit, hpre, hpost⟩ := ih _ _ hrest
        refine ⟨(s, x) :: pre, post, by rw [hsplit]; rfl, ?_, hpost⟩
        intro q hq
        rcases List.mem_cons.mp hq with h1 | h1
        · rw [h1]
          simpa [qGt] using hts
        · exact hpre q h1
      · rw [if_neg hts] at h
        cases h
        refine ⟨[], rest, rfl, by simp, ?_⟩
        intro q hq
        have h1 : qGt q.1 t' = false :=
          bestFirst_not_better qGt qGt_irrefl qGt_asym qGt_negtrans rest t' y' hrest q hq
        have h2 : t' ≤ t := by simpa [qGt, not_lt] using hts
        have h3 : q.1 ≤ t' := by simpa [qGt, not_lt] using h1
        exact le_trans h3 h2

/-! ## Embedding of `my_recognizer.py` (`recognize`)

A word model is identified by its name together with a scoring oracle
`ℕ → Option ℚ` giving, for each test item index, the log-likelihood
`model.score(current_X, current_lengths)` (`none` means the call raises).
The Python local `score` persists across iterations of both loops, so it is
threaded through the whole run as `Option ℚ` state, `none` meaning
"not yet assigned"; reading it before any assignment is the
`UnboundLocalError` modelled by `Except.error ()`. -/

/-- A word together with its model's scoring oracle over test items. -/
abbrev WordModel := String × (ℕ → Option ℚ)

/-- The inner `for word in models` loop of `recognize`: builds the
per-item dictionary `p`, tracks `best_score`/`best_word`, and threads the
stale `score` variable.  Returns `(p, best_word, score)`. -/
def scanWords (i : ℕ) :
    List WordModel → List (String × ℚ) → Option ℚ → Option String → Option ℚ →
    Except Unit (List (String × ℚ) × Option String × Option ℚ)
  | [], p, _, bw, sv => .ok (p, bw, sv)
  | (word, f) :: rest, p, bs, bw, sv =>
    match f i with
    | some s =>
      -- `score = model.score(...)` succeeded; `p[word] = score`.
      if betterO qGt s bs then scanWords i rest (p ++ [(word, s)]) (some s) (some word) (some s)
      else scanWords i rest (p ++ [(word, s)]) bs bw (some s)
    | none =>
      -- scoring raised: `p[word] = 0`, then the comparison reads the
      -- stale `score` variable.
      match sv with
      | none => .error ()
      | some sOld =>
        if betterO qGt sOld bs then
          scanWords i rest (p ++ [(word, 0)]) (some sOld) (some word) (some sOld)
        else scanWords i rest (p ++ [(word, 0)]) bs bw (some sOld)

/-- The outer `for i in range(...)` loop of `recognize`. -/
def recognizeLoop (models : List WordModel) :
    List ℕ → Option ℚ → List (List (String × ℚ)) → List (Option String) →
    Except Unit (List (List (String × ℚ)) × List (Option String))
  | [], _, probs, guesses => .ok (probs, guesses)
  | i :: rest, sv, probs, guesses =>
    match scanWords i models [] none none sv with
    | .error e => .error e
    | .ok (p, bw, sv') => recognizeLoop models rest sv' (probs ++ [p]) (guesses ++ [bw])

/-- Embedding of `recognize(models, test_set)`: items are indices into the
test set; returns `(probabilities, guesses)` or an uncaught error. -/
def recognize (models : List WordModel) (items : List ℕ) :
    Except Unit (List (List (String × ℚ)) × List (Option String)) :=
  recognizeLoop models items none [] []

/-- Scores of the word models on item `i`, in table order, as
`(score, word)` pairs; words whose scoring raises are dropped (only used
to describe runs in which every scoring succeeds). -/
def scoreList (i : ℕ) (ws : List WordModel) : List (ℚ × String) :=
  ws.filterMap (fun wm => (wm.2 i).map (fun s => (s, wm.1)))

/-- The per-item dictionary built by a fully successful scan. -/
def itemProbs (models : List WordModel) (i : ℕ) : List (String × ℚ) :=
  (scoreList i models).map (fun q => (q.2, q.1))

/-- The guess of a fully successful scan: the first maximiser of the
scores, in table order. -/
def itemGuess (models : List WordModel) (i : ℕ) : Option String :=
  (bestFirst qGt (scoreList i models)).map Prod.snd

theorem scanWords_ok (i : ℕ) :
    ∀ (ws : List WordModel) (p : List (String × ℚ)) (bs : Option ℚ) (bw : Option String)
      (sv : Option ℚ), (∀ wm ∈ ws, (wm.2 i).isSome = true) →
      ∃ sv', scanWords i ws p bs bw sv =
        .ok (p ++ (scoreList i ws).map (fun q => (q.2, q.1)),
             (scanSelS qGt (scoreList i ws) (bs, bw)).2, sv') := by
  intro ws
  induction ws with
  | nil =>
    intro p bs bw sv _
    exact ⟨sv, by simp [scanWords, scoreList, scanSelS]⟩
  | cons wm rest ih =>
    intro p bs bw sv h
    obtain ⟨word, f⟩ := wm
    obtain ⟨s, hs⟩ := Option.isSome_iff_exists.mp (h (word, f) (List.mem_cons_self _ _))
    have hs' : f i = some s := hs
    have hrest : ∀ wm ∈ rest, (wm.2 i).isSome = true :=
      fun wm hwm => h wm (List.mem_cons_of_mem _ hwm)
    have hsl : scoreList i ((word, f) :: rest) = (s, word) :: scoreList i rest := by
      simp [scoreList, List.filterMap_cons, hs']
    rw [hsl]
    by_cases hb : betterO qGt s bs = true
    · obtain ⟨sv', hsv'⟩ := ih (p ++ [(word, s)]) (some s) (some word) (some s) hrest
      refine ⟨sv', ?_⟩
      have hstep : scanWords i ((word, f) :: rest) p bs bw sv =
          scanWords i rest (p ++ [(word, s)]) (some s) (some word) (some s) := by
        simp [scanWords, hs', hb]
      rw [hstep, hsv']
      simp [scanSelS, hb, List.append_assoc]
    · obtain ⟨sv', hsv'⟩ := ih (p ++ [(word, s)]) bs bw (some s) hrest
      refine ⟨sv', ?_⟩
      have hstep : scanWords i ((word, f) :: rest) p bs bw sv =
          scanWords i rest (p ++ [(word, s)]) bs bw (some s) := by
        simp [scanWords, hs', hb]
      rw [hstep, hsv']
      simp [scanSelS, hb, List.append_assoc]

theorem recognizeLoop_ok (models : List WordModel) :
    ∀ (items : List ℕ) (sv : Option ℚ) (probs : List (List (String × ℚ)))
      (guesses : List (Option String)),
      (∀ i ∈ items, ∀ wm ∈ models, (wm.2 i).isSome = true) →
      recognizeLoop models items sv probs guesses =
        .ok (probs ++ items.map (itemProbs models), guesses ++ items.map (itemGuess models)) := by
  intro items
  induction items with
  | nil => intro sv probs guesses _; simp [recognizeLoop]
  | cons i rest ih =>
    intro sv probs guesses h
    have hi : ∀ wm ∈ models, (wm.2 i).isSome = true := h i (List.mem_cons_self _ _)
    obtain ⟨sv', hsv'⟩ := scanWords_ok i models [] none none sv hi
    have hbw : (scanSelS qGt (scoreList i models) (none, none)).2 = itemGuess models i := by
      rw [scanSelS_spec qGt qGt_trans qGt_negtrans]
      cases hb : bestFirst qGt (scoreList i models) with
      | none => simp [itemGuess, hb]
      | some q => obtain ⟨t, y⟩ := q; simp [itemGuess, hb]
    simp only [recognizeLoop, hsv', hbw, List.nil_append]
    rw [ih sv' _ _ (fun j hj wm hwm => h j (List.mem_cons_of_mem _ hj) wm hwm)]
    simp [itemProbs, List.append_assoc]

theorem lookup_append_left_notin {β : Type} (w : String) (l₁ l₂ : List (String × β))
    (h : w ∉ l₁.map Prod.fst) : List.lookup w (l₁ ++ l₂) = List.lookup w l₂ := by
  induction l₁ with
  | nil => rfl
  | cons q rest ih =>
    obtain ⟨k, v⟩ := q
    have hk : k ≠ w := by
      intro he
      exact h (by simp [he])
    have hbeq : (w == k) = false := beq_eq_false_iff_ne.mpr (Ne.symm hk)
    simp only [List.cons_append, List.lookup, hbeq]
    exact ih (fun hmem => h (List.mem_cons_of_mem _ hmem))

theorem scoreList_keys (i : ℕ) :
    ∀ ws : List WordModel, (∀ wm ∈ ws, (wm.2 i).isSome = true) →
      (scoreList i ws).map Prod.snd = ws.map Prod.fst := by
  intro ws
  induction ws with
  | nil => intro _; rfl
  | cons wm rest ih =>
    intro h
    obtain ⟨word, f⟩ := wm
    obtain ⟨s, hs⟩ := Option.isSome_iff_exists.mp (h (word, f) (List.mem_cons_self _ _))
    have hs' : f i = some s := hs
    have hrec := ih (fun wm hwm => h wm (List.mem_cons_of_mem _ hwm))
    have hsl : scoreList i ((word, f) :: rest) = (s, word) :: scoreList i rest := by
      simp [scoreList, List.filterMap_cons, hs']
    rw [hsl]
    simp [hrec]

theorem snd_notin_swap (w : String) (l : List (ℚ × String))
    (h : ∀ q ∈ l, q.2 ≠ w) : w ∉ (l.map (fun q => (q.2, q.1))).map Prod.fst := by
  intro hmem
  obtain ⟨p, hp, hpe⟩ := List.mem_map.mp hmem
  obtain ⟨q, hq, hqe⟩ := List.mem_map.mp hp
  apply h q hq
  rw [← hqe] at hpe
  exact hpe

/-- C1 (amended): provided every model scores every test item successfully
and the models table is non-empty with distinct words, `recognize` returns
normally, `probabilities` and `guesses` are the per-item score tables and
guesses in test-set order, and for every item the guessed word is a key of
that item's likelihood mapping whose stored score equals the maximum value
in the mapping, under first-seen-wins tie-breaking: every word iterated
before the guess scores strictly below it and every word after it scores at
most it.  (As literally stated the claim is false — see the counterexample
— because a scoring failure makes the comparison reuse a stale score.) -/
theorem recognize_guess_first_argmax (models : List WordModel) (items : List ℕ)
    (hne : models ≠ [])
    (hnd : (models.map Prod.fst).Nodup)
    (hall : ∀ i ∈ items, ∀ wm ∈ models, (wm.2 i).isSome = true) :
    recognize models items =
      .ok (items.map (itemProbs models), items.map (itemGuess models)) ∧
    ∀ i ∈ items, ∃ w s pre post,
      itemGuess models i = some w ∧
      itemProbs models i = pre ++ (w, s) :: post ∧
      List.lookup w (itemProbs models i) = some s ∧
      (∀ q ∈ pre, q.2 < s) ∧
      (∀ q ∈ post, q.2 ≤ s) := by
  constructor
  · have h := recognizeLoop_ok models items none [] [] hall
    simpa [recognize] using h
  · intro i hi
    have hi' : ∀ wm ∈ models, (wm.2 i).isSome = true := fun wm hwm => hall i hi wm hwm
    have hkeys : (scoreList i models).map Prod.snd = models.map Prod.fst :=
      scoreList_keys i models hi'
    have hslne : scoreList i models ≠ [] := by
      intro h0
      rw [h0] at hkeys
      exact hne (List.map_eq_nil_iff.mp hkeys.symm)
    cases hbf : bestFirst qGt (scoreList i models) with
    | none => exact absurd (bestFirst_eq_none qGt _ hbf) hslne
    | some q =>
      obtain ⟨s, w⟩ := q
      obtain ⟨pre', post', hsplit, hpre, hpost⟩ := bestFirst_split _ _ _ hbf
      have hprobs : itemProbs models i =
          pre'.map (fun q => (q.2, q.1)) ++ (w, s) :: post'.map (fun q => (q.2, q.1)) := by
        simp [itemProbs, hsplit]
      have hndkeys : ((scoreList i models).map Prod.snd).Nodup := by
        rw [hkeys]; exact hnd
      have hwpre : ∀ q ∈ pre', q.2 ≠ w := by
        intro q hq he
        rw [hsplit] at hndkeys
        simp only [List.map_append, List.map_cons] at hndkeys
        obtain ⟨hnotin, _⟩ := List.nodup_cons.mp (List.nodup_middle.mp hndkeys)
        exact hnotin (List.mem_append.mpr (Or.inl (he ▸ List.mem_map_of_mem _ hq)))
      refine ⟨w, s, pre'.map (fun q => (q.2, q.1)), post'.map (fun q => (q.2, q.1)),
        ?_, hprobs, ?_, ?_, ?_⟩
      · simp [itemGuess, hbf]
      · rw [hprobs, lookup_append_left_notin _ _ _ (snd_notin_swap w pre' hwpre)]
        simp [List.lookup]
      · intro q hq
        obtain ⟨q', hq', hqe⟩ := List.mem_map.mp hq
        rw [← hqe]
        exact hpre q' hq'
      · intro q hq
        obtain ⟨q', hq', hqe⟩ := List.mem_map.mp hq
        rw [← hqe]
        exact hpost q' hq'

/-- C1 (counterexample): word "A" scores item 0 but fails on item 1, word
"B" scores both.  The comparison after "A"'s failure on item 1 reuses the
stale score 10 ("B"'s score on item 0, carried across items), so "A" is
guessed for item 1 although its recorded score is the sentinel 0 and not
the maximum value 5 of that item's mapping — the claim's argmax property
fails on this input. -/
theorem recognize_guess_first_argmax_cex :
    recognize [("A", fun i => if i = 0 then some 1 else none),
               ("B", fun i => if i = 0 then some 10 else some 5)] [0, 1] =
      .ok ([[("A", 1), ("B", 10)], [("A", 0), ("B", 5)]], [some "B", some "A"]) ∧
    List.lookup "A" [("A", (0 : ℚ)), ("B", 5)] = some 0 ∧
    ("B", (5 : ℚ)) ∈ [("A", (0 : ℚ)), ("B", 5)] ∧
    (0 : ℚ) < 5 := by
  refine ⟨rfl, by simp [List.lookup], by simp, by norm_num⟩

/-- Witness for C1 (amended) at a concrete all-successful input. -/
theorem recognize_guess_first_argmax_witness :
    recognize [("A", fun _ => some 1), ("B", fun _ => some 2)] [0] =
      .ok ([0].map (itemProbs [("A", fun _ => some 1), ("B", fun _ => some 2)]),
           [0].map (itemGuess [("A", fun _ => some 1), ("B", fun _ => some 2)])) ∧
    ∀ i ∈ [0], ∃ w s pre post,
      itemGuess [("A", fun _ => some 1), ("B", fun _ => some 2)] i = some w ∧
      itemProbs [("A", fun _ => some 1), ("B", fun _ => some 2)] i = pre ++ (w, s) :: post ∧
      List.lookup w (itemProbs [("A", fun _ => some 1), ("B", fun _ => some 2)] i) = some s ∧
      (∀ q ∈ pre, q.2 < s) ∧
      (∀ q ∈ post, q.2 ≤ s) :=
  recognize_guess_first_argmax [("A", fun _ => some 1), ("B", fun _ => some 2)] [0]
    (List.cons_ne_nil _ _)
    (by simp)
    (by
      intro i hi wm hwm
      rcases List.mem_cons.mp hwm with h | h
      · rw [h]; rfl
      · rw [List.mem_singleton.mp h]; rfl)

/-- C6 (code bug): when the very first word of the very first item fails to
score, the comparison `score > best_score` reads the local `score` before
any assignment, raising an uncaught `UnboundLocalError` — recognition does
not record 0 and continue as the claim states, even though a later word
("WORLD" here) would score successfully. -/
theorem recognize_first_failure_crashes :
    recognize [("HELLO", fun _ => none), ("WORLD", fun _ => some 5)] [0] = .error () := rfl

/-- C9: (a) on an input whose first word fails to score the first item,
`recognize` reads `score` before assignment and raises instead of
returning; (b) after a scoring failure the comparison uses the stale
previous score rather than the recorded sentinel 0: word "A" fails on item
1 yet wins it via the stale score 20 (word "B"'s score on item 0), so the
failing word is guessed with another word's score — its recorded score 0
is below "B"'s 7 in that item's mapping. -/
theorem recognize_stale_score_bug :
    recognize [("A", fun _ => none)] [0] = .error () ∧
    recognize [("A", fun i => if i = 0 then some 3 else none),
               ("B", fun i => if i = 0 then some 20 else some 7)] [0, 1] =
      .ok ([[("A", 3), ("B", 20)], [("A", 0), ("B", 7)]], [some "B", some "A"]) ∧
    (0 : ℚ) < 7 := by
  refine ⟨rfl, rfl, by norm_num⟩

end AslRec

namespace AslRec

/-! ## Embedding of `SelectorBIC.select`

The numeric environment supplies, per candidate state count `num`,
whether `base_model(num)` produced a model (`fitOk`, `False` meaning
`base_model` caught the fit exception and returned `None`) and the result
of `model.score(self.X, self.lengths)` (`scoreL`, `none` = the call
raises).  `X` is `self.X`; `lnN` models the float `np.log(len(self.X))`
(floating point is not embedded, so the logarithm value is an abstract
rational parameter of the run).  Models are identified by their state
count, since `base_model(num)` is determined by `num`.  The single `try`
around the whole loop means any candidate failure returns `best_model`
immediately. -/

structure BicEnv where
  X : List (List ℚ)
  fitOk : ℕ → Bool
  scoreL : ℕ → Option ℚ
  lnN : ℚ

/-- Outcome of `model = self.base_model(num)` followed by
`logL = model.score(...)`: if `base_model` returned `None`, the `.score`
attribute access raises; otherwise the score itself may raise. -/
def candLogL (env : BicEnv) (num : ℕ) : Option ℚ :=
  if env.fitOk num then env.scoreL num else none

/-- Full evaluation of one candidate: the log-likelihood, then
`p = num*(num-1) + 2*len(X[0])*num` (an `IndexError` if `X` is empty),
then `score = -2*logL + p*np.log(len(X))`.  `none` = some step raised. -/
def candAttempt (env : BicEnv) (num : ℕ) : Option ℚ :=
  match candLogL env num, env.X.head? with
  | some logL, some row =>
    some (-2 * logL + ((num * (num - 1) + 2 * row.length * num : ℕ) : ℚ) * env.lnN)
  | _, _ => none

/-- The `for num in range(...)` loop of `SelectorBIC.select`, with the
surrounding `try`: the first raising candidate returns `best_model`
as-is. -/
def bicLoop (env : BicEnv) : List ℕ → Option ℚ → Option ℕ → Option ℕ
  | [], _, bestModel => bestModel
  | num :: rest, bestScore, bestModel =>
    match candAttempt env num with
    | none => bestModel
    | some sc =>
      if betterO qLt sc bestScore then bicLoop env rest (some sc) (some num)
      else bicLoop env rest bestScore bestModel

/-- Embedding of `SelectorBIC.select` over the range
`[minC, maxC]` (defaults 2..10 in the source). -/
def bicSelect (env : BicEnv) (minC maxC : ℕ) : Option ℕ :=
  bicLoop env (pyRange minC (maxC + 1)) none none

/-- The candidates the run actually evaluates: the longest prefix of the
range on which fit, score, and the BIC arithmetic all succeed (the first
failure aborts the loop). -/
def bicEvaluated (env : BicEnv) (minC maxC : ℕ) : List ℕ :=
  (pyRange minC (maxC + 1)).takeWhile (fun n => (candAttempt env n).isSome)

/-- The evaluated candidates paired with their BIC scores. -/
def bicScored (env : BicEnv) (nums : List ℕ) : List (ℚ × ℕ) :=
  (nums.takeWhile (fun n => (candAttempt env n).isSome)).map
    (fun n => ((candAttempt env n).getD 0, n))

theorem bicLoop_eq_scan (env : BicEnv) :
    ∀ (nums : List ℕ) (bs : Option ℚ) (bm : Option ℕ),
      bicLoop env nums bs bm = (scanSelS qLt (bicScored env nums) (bs, bm)).2 := by
  intro nums
  induction nums with
  | nil => intro bs bm; rfl
  | cons num rest ih =>
    intro bs bm
    cases hc : candAttempt env num with
    | none =>
      simp only [bicLoop, hc, bicScored, List.takeWhile_cons, Option.isSome_none,
        Bool.false_eq_true, if_false, List.map_nil, scanSelS]
    | some sc =>
      simp only [bicLoop, hc, bicScored, List.takeWhile_cons, Option.isSome_some, if_true,
        List.map_cons, Option.getD_some, scanSelS]
      by_cases hb : betterO qLt sc bs = true
      · rw [if_pos hb, if_pos hb, ih]
        rfl
      · rw [if_neg hb, if_neg hb, ih]
        rfl

/-- Shared characterisation: `SelectorBIC.select` returns the first
BIC-minimiser among the candidates evaluated before the first failure. -/
theorem bicSelect_eq_bestFirst (env : BicEnv) (minC maxC : ℕ) :
    bicSelect env minC maxC =
      (bestFirst qLt (bicScored env (pyRange minC (maxC + 1)))).map Prod.snd := by
  unfold bicSelect
  rw [bicLoop_eq_scan, scanSelS_spec qLt qLt_trans qLt_negtrans]
  cases h : bestFirst qLt (bicScored env (pyRange minC (maxC + 1))) with
  | none => rfl
  | some q => obtain ⟨t, y⟩ := q; rfl

/-- Environment refuting C2: candidate 3 fails to fit while candidates 2
and 4 both fit and score, and candidate 4 has the strictly lower BIC. -/
def bicCexEnv : BicEnv where
  X := [[0, 0]]
  fitOk := fun n => decide (n ≠ 3)
  scoreL := fun n => if n = 2 then some (-5) else some 0
  lnN := 0

/-- C2 is false as stated: a single `try` wraps the whole candidate loop of
`SelectorBIC.select`, so candidate 3's fit failure aborts the search.
Candidate 4's fit and score would succeed and its BIC (0) is strictly lower
than candidate 2's (10), yet the model for candidate 2 is returned: the
remaining candidates are not fitted or scored, and the returned model is not
the best-scoring successful fit of the range. -/
theorem bicSelect_failure_aborts_cex :
    bicSelect bicCexEnv 2 4 = some 2 ∧
    candLogL bicCexEnv 4 = some 0 ∧
    candAttempt bicCexEnv 4 = some 0 ∧
    candAttempt bicCexEnv 2 = some 10 ∧
    (0 : ℚ) < 10 := by
  refine ⟨rfl, rfl, ?_, ?_, by norm_num⟩
  · norm_num [candAttempt, candLogL, bicCexEnv]
  · norm_num [candAttempt, candLogL, bicCexEnv]

/-- C2 (amended): a fit or score failure of a candidate does not merely
eliminate that candidate — it aborts the whole search.  The selector
returns the best-scoring fit among the candidates evaluated *before the
first failure* (none if the first failure precedes any success, and the
first minimiser under first-seen tie-breaking). -/
theorem bicSelect_best_before_first_failure (env : BicEnv) (minC maxC : ℕ) :
    bicSelect env minC maxC =
      (bestFirst qLt (bicScored env (pyRange minC (maxC + 1)))).map Prod.snd :=
  bicSelect_eq_bestFirst env minC maxC

/-- C3: every candidate evaluated by the `SelectorBIC.select` run (the scan
stops at the first failing candidate, so these are exactly the candidates
whose fit and score succeed during the run) is assigned
`BIC = -2*logL + p*ln(N)` with `p = n*(n-1) + 2*d*n`, `d` the feature
dimensionality `len(X[0])` and `ln(N)` the logarithm of the frame count
`len(X)` (the abstract parameter `lnN`); the returned model's BIC is less
than or equal to every such candidate's BIC. -/
theorem bicSelect_min_over_evaluated (env : BicEnv) (minC maxC m : ℕ)
    (h : bicSelect env minC maxC = some m) :
    m ∈ bicEvaluated env minC maxC ∧
    (∀ n ∈ bicEvaluated env minC maxC, ∃ logL row, candLogL env n = some logL ∧
       env.X.head? = some row ∧
       candAttempt env n =
         some (-2 * logL + ((n * (n - 1) + 2 * row.length * n : ℕ) : ℚ) * env.lnN)) ∧
    (∀ n ∈ bicEvaluated env minC maxC, ∀ sm sn, candAttempt env m = some sm →
       candAttempt env n = some sn → sm ≤ sn) := by
  rw [bicSelect_eq_bestFirst] at h
  cases hbf : bestFirst qLt (bicScored env (pyRange minC (maxC + 1))) with
  | none => rw [hbf] at h; cases h
  | some q =>
    obtain ⟨t, y⟩ := q
    rw [hbf] at h
    simp only [Option.map_some'] at h
    cases h
    have hmem : (t, m) ∈ bicScored env (pyRange minC (maxC + 1)) :=
      bestFirst_mem qLt _ _ hbf
    obtain ⟨n0, hn0mem, hn0eq⟩ := List.mem_map.mp hmem
    have hn0m : n0 = m := congrArg Prod.snd hn0eq
    have ht : (candAttempt env m).getD 0 = t := by
      have := congrArg Prod.fst hn0eq
      rw [hn0m] at this
      exact this
    subst hn0m
    refine ⟨hn0mem, ?_, ?_⟩
    · intro n hn
      have hp : ((candAttempt env n).isSome : Bool) = true := by
        simpa using List.mem_takeWhile_imp hn
      cases hl : candLogL env n with
      | none => simp [candAttempt, hl] at hp
      | some logL =>
        cases hx : env.X.head? with
        | none => simp [candAttempt, hl, hx] at hp
        | some row => exact ⟨logL, row, rfl, rfl, by simp only [candAttempt, hl, hx]⟩
    · intro n hn sm sn hm hn'
      have hscored : ((candAttempt env n).getD 0, n) ∈
          bicScored env (pyRange minC (maxC + 1)) := by
        unfold bicScored
        exact List.mem_map_of_mem _ hn
      have hnb := bestFirst_not_better qLt qLt_irrefl qLt_asym qLt_negtrans _ _ _ hbf
        _ hscored
      rw [hn'] at hnb
      rw [hm] at ht
      simp only [Option.getD_some, qLt, decide_eq_false_iff_not, not_lt] at hnb ht
      rw [ht]
      exact hnb

/-- Witness environment for C3: every candidate fits and scores. -/
def bicWitEnv : BicEnv where
  X := [[0]]
  fitOk := fun _ => true
  scoreL := fun n => some (-(n : ℚ))
  lnN := 0

/-! ## Embedding of `SelectorCV.select`

`self.sequences` has `nSeqs` instances; `kfold_n = min(3, len(sequences))`.
If `kfold_n == 1` the degenerate branch fits `base_model(num)` on all the
word's data (`selfFitOk`; a failed fit yields `None`, whose `.score`
attribute access raises and is caught by the bare `except`) and scores it
on the same data (`selfScore`).  Otherwise `KFold(kfold_n)` splits the
instance indices into contiguous positional folds; per fold the model is
fitted on the combined held-in instances (identified by their index list;
`combine_sequences` is a pure function of those indices) and scored on the
held-out instances; any raise skips the whole candidate.  A fitted model is
identified by `(num, trainIdx)`, the state count and the instance indices
it was fitted on. -/

abbrev CvModel := ℕ × List ℕ

structure CvEnv where
  nSeqs : ℕ
  fitOk : ℕ → List ℕ → Bool
  scoreOf : ℕ → List ℕ → List ℕ → Option ℚ
  selfFitOk : ℕ → Bool
  selfScore : ℕ → Option ℚ

/-- Fold sizes of `sklearn.model_selection.KFold(k).split` on `n` samples:
the first `n % k` folds get `n / k + 1` samples, the rest `n / k`. -/
def foldSizes (k n : ℕ) : List ℕ :=
  (List.range k).map (fun i => n / k + if i < n % k then 1 else 0)

/-- Held-in indices for the contiguous held-out block `[start, start+size)`
out of `n` samples. -/
def trainIdx (n start size : ℕ) : List ℕ :=
  List.range start ++ (List.range (n - (start + size))).map (start + size + ·)

/-- The `(train, test)` index pairs produced by `KFold.split`, in order. -/
def kfoldsGo (n : ℕ) : List ℕ → ℕ → List (List ℕ × List ℕ)
  | [], _ => []
  | s :: rest, start =>
    (trainIdx n start s, (List.range s).map (start + ·)) :: kfoldsGo n rest (start + s)

def kfolds (k n : ℕ) : List (List ℕ × List ℕ) := kfoldsGo n (foldSizes k n) 0

/-- The inner `for cv_train, cv_test in split_method.split(...)` loop:
accumulates `log_sum` and `length`, remembers the most recently fitted
model; any fit or score failure raises out of the fold loop (`none`). -/
def cvFoldLoop (env : CvEnv) (num : ℕ) :
    List (List ℕ × List ℕ) → ℚ → ℕ → Option CvModel → Option (ℚ × ℕ × Option CvModel)
  | [], acc, len, m => some (acc, len, m)
  | (tr, te) :: rest, acc, len, _ =>
    if env.fitOk num tr then
      match env.scoreOf num tr te with
      | some sc => cvFoldLoop env num rest (acc + sc) (len + 1) (some (num, tr))
      | none => none
    else none

/-- One candidate of the non-degenerate branch: run all folds, then
`avg_score = log_sum / length` (a `ZeroDivisionError`, hence a skip, if no
fold ran).  `none` = the candidate is skipped by the `except`. -/
def cvCandidate (env : CvEnv) (k num : ℕ) : Option (ℚ × CvModel) :=
  match cvFoldLoop env num (kfolds k env.nSeqs) 0 0 none with
  | none => none
  | some (_, 0, _) => none
  | some (acc, len + 1, mo) => mo.map (fun m => (acc / ((len + 1 : ℕ) : ℚ), m))

/-- The candidate loop of the non-degenerate branch. -/
def cvNumLoop (env : CvEnv) (k : ℕ) : List ℕ → Option ℚ → Option CvModel → Option CvModel
  | [], _, bm => bm
  | num :: rest, bs, bm =>
    match cvCandidate env k num with
    | none => cvNumLoop env k rest bs bm
    | some p =>
      if betterO qGt p.1 bs then cvNumLoop env k rest (some p.1) (some p.2)
      else cvNumLoop env k rest bs bm

/-- `base_model(num)` followed by `model.score(self.X, self.lengths)` in the
degenerate branch (fit failure gives `None`, whose `.score` raises; both
raises are caught and skip the candidate). -/
def cvDegenEval (env : CvEnv) (num : ℕ) : Option ℚ :=
  if env.selfFitOk num then env.selfScore num else none

/-- The candidate loop of the degenerate (single-instance) branch; the
model is fitted on all of the word's data, i.e. all instance indices. -/
def cvDegenLoop (env : CvEnv) : List ℕ → Option ℚ → Option CvModel → Option CvModel
  | [], _, bm => bm
  | num :: rest, bs, bm =>
    match cvDegenEval env num with
    | none => cvDegenLoop env rest bs bm
    | some sc =>
      if betterO qGt sc bs then
        cvDegenLoop env rest (some sc) (some (num, List.range env.nSeqs))
      else cvDegenLoop env rest bs bm

/-- Embedding of `SelectorCV.select` over `[minC, maxC]`. -/
def cvSelect (env : CvEnv) (minC maxC : ℕ) : Option CvModel :=
  if min 3 env.nSeqs = 1 then cvDegenLoop env (pyRange minC (maxC + 1)) none none
  else cvNumLoop env (min 3 env.nSeqs) (pyRange minC (maxC + 1)) none none

/-- Outcome of one fold per the spec's words: fit on the held-in indices,
score on the held-out indices, fail if either fails. -/
def foldEval (env : CvEnv) (num : ℕ) (f : List ℕ × List ℕ) : Option ℚ :=
  if env.fitOk num f.1 then env.scoreOf num f.1 f.2 else none

/-- Candidate quality per the spec's words: every fold must succeed, and
the quality is the arithmetic mean of the fold scores. -/
def cvMeanSpec (env : CvEnv) (k num : ℕ) : Option ℚ :=
  let evs := (kfolds k env.nSeqs).map (foldEval env num)
  if evs.isEmpty || !(evs.all Option.isSome) then none
  else some ((evs.filterMap id).sum / (evs.length : ℚ))

/-- Scored candidates of the non-degenerate branch, in range order. -/
def cvScored (env : CvEnv) (k : ℕ) (nums : List ℕ) : List (ℚ × CvModel) :=
  nums.filterMap (cvCandidate env k)

/-- Scored candidates of the degenerate branch, in range order. -/
def degenScored (env : CvEnv) (nums : List ℕ) : List (ℚ × CvModel) :=
  nums.filterMap (fun n => (cvDegenEval env n).map (fun s => (s, (n, List.range env.nSeqs))))

theorem getLast?_cons_ne {α : Type} (a : α) (l : List α) (h : l ≠ []) :
    (a :: l).getLast? = l.getLast? := by
  cases l with
  | nil => exact absurd rfl h
  | cons b t => exact List.getLast?_cons_cons

theorem sum_map_range_add_ite (q r : ℕ) :
    ∀ k, ((List.range k).map (fun i => q + if i < r then 1 else 0)).sum = k * q + min r k := by
  intro k
  induction k with
  | zero => simp
  | succ k ih =>
    rw [List.range_succ, List.map_append, List.sum_append, ih]
    by_cases h : k < r
    · rw [List.map_cons, List.map_nil, List.sum_cons, List.sum_nil, if_pos h, Nat.succ_mul,
        show min r (k + 1) = min r k + 1 by omega]
      omega
    · rw [List.map_cons, List.map_nil, List.sum_cons, List.sum_nil, if_neg h, Nat.succ_mul,
        show min r (k + 1) = min r k by omega]
      omega

theorem foldSizes_sum (k n : ℕ) (hk : 0 < k) : (foldSizes k n).sum = n := by
  unfold foldSizes
  rw [sum_map_range_add_ite]
  have h1 : n % k < k := Nat.mod_lt _ hk
  have h2 := Nat.div_add_mod n k
  omega

theorem foldSizes_length (k n : ℕ) : (foldSizes k n).length = k := by
  simp [foldSizes]

theorem foldSizes_pos (k n : ℕ) (hk : 0 < k) (hkn : k ≤ n) :
    ∀ s ∈ foldSizes k n, 1 ≤ s := by
  intro s hs
  simp only [foldSizes, List.mem_map, List.mem_range] at hs
  obtain ⟨i, _, he⟩ := hs
  have h1 : 1 ≤ n / k := (Nat.one_le_div_iff hk).mpr hkn
  have h2 : n / k ≤ s := by
    rw [← he]
    exact Nat.le_add_right _ _
  omega

theorem kfoldsGo_length (n : ℕ) :
    ∀ (sizes : List ℕ) (start : ℕ), (kfoldsGo n sizes start).length = sizes.length := by
  intro sizes
  induction sizes with
  | nil => intro start; rfl
  | cons s rest ih => intro start; simp [kfoldsGo, ih]

theorem kfolds_length (k n : ℕ) : (kfolds k n).length = k := by
  rw [kfolds, kfoldsGo_length, foldSizes_length]

theorem kfoldsGo_tests (n : ℕ) :
    ∀ (sizes : List ℕ) (start : ℕ),
      ((kfoldsGo n sizes start).map Prod.snd).flatten =
        (List.range sizes.sum).map (start + ·) := by
  intro sizes
  induction sizes with
  | nil => intro start; simp [kfoldsGo]
  | cons s rest ih =>
    intro start
    simp only [kfoldsGo, List.map_cons, List.flatten_cons, ih (start + s), List.sum_cons,
      List.range_add, List.map_append, List.map_map]
    congr 1
    ext x
    simp [Function.comp, Nat.add_assoc]

/-- The test blocks of `KFold(k)` on `n` samples partition the indices
`0, …, n-1` contiguously and in order. -/
theorem kfolds_tests_join (k n : ℕ) (hk : 0 < k) :
    ((kfolds k n).map Prod.snd).flatten = List.range n := by
  rw [kfolds, kfoldsGo_tests, foldSizes_sum k n hk]
  simp

theorem kfoldsGo_last_train (n : ℕ) :
    ∀ (sizes : List ℕ) (start : ℕ), sizes ≠ [] → (∀ s ∈ sizes, 1 ≤ s) →
      start + sizes.sum = n →
      ∃ f, (kfoldsGo n sizes start).getLast? = some f ∧ f.1.length < n := by
  intro sizes
  induction sizes with
  | nil => intro start h; exact absurd rfl h
  | cons s rest ih =>
    intro start _ hpos hsum
    cases rest with
    | nil =>
      refine ⟨(trainIdx n start s, (List.range s).map (start + ·)), by simp [kfoldsGo], ?_⟩
      have hs : 1 ≤ s := hpos s (List.mem_cons_self _ _)
      have hsum' : start + s = n := by simpa using hsum
      simp only [trainIdx, List.length_append, List.length_range, List.length_map]
      omega
    | cons s2 rest2 =>
      obtain ⟨f, hf, hlen⟩ := ih (start + s) (by simp)
        (fun x hx => hpos x (List.mem_cons_of_mem _ hx))
        (by simp only [List.sum_cons] at hsum ⊢; omega)
      refine ⟨f, ?_, hlen⟩
      rw [kfoldsGo, getLast?_cons_ne _ _ (by simp [kfoldsGo]), hf]

theorem cvFoldLoop_spec (env : CvEnv) (num : ℕ) :
    ∀ (fs : List (List ℕ × List ℕ)) (acc : ℚ) (len : ℕ) (m : Option CvModel),
      cvFoldLoop env num fs acc len m =
        if (fs.map (foldEval env num)).all Option.isSome then
          some (acc + ((fs.map (foldEval env num)).filterMap id).sum, len + fs.length,
            match fs.getLast? with
            | none => m
            | some f => some (num, f.1))
        else none := by
  intro fs
  induction fs with
  | nil => intro acc len m; simp [cvFoldLoop]
  | cons f rest ih =>
    intro acc len m
    obtain ⟨tr, te⟩ := f
    by_cases hfit : env.fitOk num tr = true
    · cases hsc : env.scoreOf num tr te with
      | none =>
        have hev : foldEval env num (tr, te) = none := by simp [foldEval, hfit, hsc]
        simp [cvFoldLoop, hfit, hsc, hev]
      | some sc =>
        have hev : foldEval env num (tr, te) = some sc := by simp [foldEval, hfit, hsc]
        have hstep : cvFoldLoop env num ((tr, te) :: rest) acc len m =
            cvFoldLoop env num rest (acc + sc) (len + 1) (some (num, tr)) := by
          simp [cvFoldLoop, hfit, hsc]
        rw [hstep, ih]
        by_cases hall : (rest.map (foldEval env num)).all Option.isSome = true
        · rw [if_pos hall, if_pos (by simp [hall, hev])]
          cases hrest : rest.getLast? with
          | none =>
            have : rest = [] := List.getLast?_eq_none_iff.mp hrest
            subst this
            simp [hev, add_assoc]
          | some f2 =>
            have hne : rest ≠ [] := by
              intro h0
              rw [h0] at hrest
              cases hrest
            rw [getLast?_cons_ne _ _ hne, hrest]
            simp only [List.map_cons, List.filterMap_cons, id, hev, List.sum_cons,
              List.length_cons, Option.some.injEq, Prod.mk.injEq, and_true]
            exact ⟨by ring, by omega⟩
        · rw [if_neg hall, if_neg (by
            simp only [List.map_cons, List.all_cons, hev, Option.isSome_some, Bool.true_and]
            exact hall)]
    · have hev : foldEval env num (tr, te) = none := by simp [foldEval, hfit]
      simp [cvFoldLoop, hfit, hev]

theorem cvCandidate_fst (env : CvEnv) (k num : ℕ) :
    (cvCandidate env k num).map Prod.fst = cvMeanSpec env k num := by
  unfold cvCandidate cvMeanSpec
  rw [cvFoldLoop_spec]
  by_cases hall : ((kfolds k env.nSeqs).map (foldEval env num)).all Option.isSome = true
  · rw [if_pos hall]
    cases hfs : (kfolds k env.nSeqs).getLast? with
    | none =>
      have h0 : kfolds k env.nSeqs = [] := List.getLast?_eq_none_iff.mp hfs
      simp [h0]
    | some f =>
      have hne : kfolds k env.nSeqs ≠ [] := by
        intro h0
        rw [h0] at hfs
        cases hfs
      obtain ⟨l, hl⟩ : ∃ l, (kfolds k env.nSeqs).length = l + 1 := by
        cases hlen : (kfolds k env.nSeqs).length with
        | zero => exact absurd (List.length_eq_zero.mp hlen) hne
        | succ l => exact ⟨l, rfl⟩
      have hemp : ((kfolds k env.nSeqs).map (foldEval env num)).isEmpty = false := by
        rw [List.isEmpty_eq_false_iff_exists_mem]
        obtain ⟨x, hx⟩ := List.exists_mem_of_ne_nil _ hne
        exact ⟨foldEval env num x, List.mem_map_of_mem _ hx⟩
      simp only [Nat.zero_add, zero_add, hl, hemp, hall, Bool.not_true, Bool.or_false,
        Bool.false_eq_true, if_false, Option.map_some', List.length_map]
  · rw [if_neg hall]
    have hb : (!((kfolds k env.nSeqs).map (foldEval env num)).all Option.isSome) = true := by
      simp only [Bool.not_eq_true']
      exact bool_false_of_not hall
    simp [hb]

theorem cvNumLoop_eq_scan (env : CvEnv) (k : ℕ) :
    ∀ (nums : List ℕ) (bs : Option ℚ) (bm : Option CvModel),
      cvNumLoop env k nums bs bm = (scanSelS qGt (cvScored env k nums) (bs, bm)).2 := by
  intro nums
  induction nums with
  | nil => intro bs bm; rfl
  | cons num rest ih =>
    intro bs bm
    cases hc : cvCandidate env k num with
    | none => simp [cvNumLoop, hc, cvScored, List.filterMap_cons, ih bs bm]
    | some p =>
      obtain ⟨avg, m⟩ := p
      simp only [cvNumLoop, hc, cvScored, List.filterMap_cons, scanSelS]
      by_cases hb : betterO qGt avg bs = true
      · rw [if_pos hb, if_pos hb]
        exact ih _ _
      · rw [if_neg hb, if_neg hb]
        exact ih _ _

theorem cvDegenLoop_eq_scan (env : CvEnv) :
    ∀ (nums : List ℕ) (bs : Option ℚ) (bm : Option CvModel),
      cvDegenLoop env nums bs bm = (scanSelS qGt (degenScored env nums) (bs, bm)).2 := by
  intro nums
  induction nums with
  | nil => intro bs bm; rfl
  | cons num rest ih =>
    intro bs bm
    cases hc : cvDegenEval env num with
    | none => simp [cvDegenLoop, hc, degenScored, List.filterMap_cons, ih bs bm]
    | some sc =>
      simp only [cvDegenLoop, hc, degenScored, List.filterMap_cons, Option.map_some',
        scanSelS]
      by_cases hb : betterO qGt sc bs = true
      · rw [if_pos hb, if_pos hb]
        exact ih _ _
      · rw [if_neg hb, if_neg hb]
        exact ih _ _

/-- A successful candidate of the non-degenerate branch carries the model
fitted on the held-in indices of the final fold. -/
theorem cvCandidate_model (env : CvEnv) (k num : ℕ) (p : ℚ × CvModel)
    (h : cvCandidate env k num = some p) :
    ∃ f, (kfolds k env.nSeqs).getLast? = some f ∧ p.2 = (num, f.1) := by
  unfold cvCandidate at h
  rw [cvFoldLoop_spec] at h
  by_cases hall : ((kfolds k env.nSeqs).map (foldEval env num)).all Option.isSome = true
  · rw [if_pos hall] at h
    cases hfs : (kfolds k env.nSeqs).getLast? with
    | none =>
      have h0 : kfolds k env.nSeqs = [] := List.getLast?_eq_none_iff.mp hfs
      simp [h0] at h
    | some f =>
      have hne : kfolds k env.nSeqs ≠ [] := by
        intro h0
        rw [h0] at hfs
        cases hfs
      obtain ⟨l, hl⟩ : ∃ l, (kfolds k env.nSeqs).length = l + 1 := by
        cases hlen : (kfolds k env.nSeqs).length with
        | zero => exact absurd (List.length_eq_zero.mp hlen) hne
        | succ l => exact ⟨l, rfl⟩
      rw [hfs] at h
      simp only [Nat.zero_add, zero_add, hl, Option.map_some', Option.some.injEq] at h
      exact ⟨f, rfl, by rw [← h]⟩
  · rw [if_neg hall] at h
    cases h

/-- Shared elimination: a successful `SelectorCV.select` run (non-degenerate
branch) returns a candidate's value that is maximal among all successful
candidates of the range. -/
theorem cvSelect_some_elim (env : CvEnv) (minC maxC : ℕ) (m : CvModel)
    (h2 : 2 ≤ env.nSeqs) (hm : cvSelect env minC maxC = some m) :
    ∃ avg win, win ∈ pyRange minC (maxC + 1) ∧
      cvCandidate env (min 3 env.nSeqs) win = some (avg, m) ∧
      ∀ n ∈ pyRange minC (maxC + 1), ∀ p, cvCandidate env (min 3 env.nSeqs) n = some p →
        p.1 ≤ avg := by
  have hkne1 : ¬ (min 3 env.nSeqs = 1) := by omega
  rw [cvSelect, if_neg hkne1, cvNumLoop_eq_scan,
    scanSelS_spec qGt qGt_trans qGt_negtrans] at hm
  cases hbf : bestFirst qGt (cvScored env (min 3 env.nSeqs) (pyRange minC (maxC + 1))) with
  | none => rw [hbf] at hm; cases hm
  | some q =>
    obtain ⟨avg, m'⟩ := q
    rw [hbf] at hm
    simp only [betterO_none, if_true, Option.some.injEq] at hm
    cases hm
    obtain ⟨win, hwin, hce⟩ := List.mem_filterMap.mp (bestFirst_mem qGt _ _ hbf)
    refine ⟨avg, win, hwin, hce, ?_⟩
    intro n hn p hp
    have hmemn : p ∈ cvScored env (min 3 env.nSeqs) (pyRange minC (maxC + 1)) :=
      List.mem_filterMap.mpr ⟨n, hn, hp⟩
    have := bestFirst_not_better qGt qGt_irrefl qGt_asym qGt_negtrans _ _ _ hbf p hmemn
    simpa [qGt, not_lt] using this

/-- C7: for a word with at least 2 training instances, each candidate state
count is evaluated over exactly `k = min(3, instance_count)` folds whose
held-out blocks partition the instance indices contiguously and in order;
a candidate's quality is defined exactly when all its folds fit and score
(fit on held-in, score on held-out) and equals the arithmetic mean of the
fold scores; and the returned model belongs to a candidate whose mean is
greater than or equal to every successful candidate's mean in the range. -/
theorem cvSelect_kfold_mean_argmax (env : CvEnv) (minC maxC : ℕ) (m : CvModel)
    (h2 : 2 ≤ env.nSeqs) (hm : cvSelect env minC maxC = some m) :
    (kfolds (min 3 env.nSeqs) env.nSeqs).length = min 3 env.nSeqs ∧
    ((kfolds (min 3 env.nSeqs) env.nSeqs).map Prod.snd).flatten = List.range env.nSeqs ∧
    (∀ num, (cvCandidate env (min 3 env.nSeqs) num).map Prod.fst =
      cvMeanSpec env (min 3 env.nSeqs) num) ∧
    (∃ avg win, win ∈ pyRange minC (maxC + 1) ∧
      cvCandidate env (min 3 env.nSeqs) win = some (avg, m) ∧
      ∀ n ∈ pyRange minC (maxC + 1), ∀ p, cvCandidate env (min 3 env.nSeqs) n = some p →
        p.1 ≤ avg) :=
  ⟨kfolds_length _ _,
   kfolds_tests_join _ _ (by omega),
   fun num => cvCandidate_fst env _ num,
   cvSelect_some_elim env minC maxC m h2 hm⟩

/-- Witness environment for C7: two instances, every fit and score
succeeds. -/
def cvWitEnv : CvEnv where
  nSeqs := 2
  fitOk := fun _ _ => true
  scoreOf := fun n _ _ => some (n : ℚ)
  selfFitOk := fun _ => true
  selfScore := fun _ => none

/-- Witness for C7 at a concrete run with a single candidate. -/
theorem cvSelect_kfold_mean_argmax_witness :
    (kfolds (min 3 cvWitEnv.nSeqs) cvWitEnv.nSeqs).length = min 3 cvWitEnv.nSeqs ∧
    ((kfolds (min 3 cvWitEnv.nSeqs) cvWitEnv.nSeqs).map Prod.snd).flatten =
      List.range cvWitEnv.nSeqs ∧
    (∀ num, (cvCandidate cvWitEnv (min 3 cvWitEnv.nSeqs) num).map Prod.fst =
      cvMeanSpec cvWitEnv (min 3 cvWitEnv.nSeqs) num) ∧
    (∃ avg win, win ∈ pyRange 2 (2 + 1) ∧
      cvCandidate cvWitEnv (min 3 cvWitEnv.nSeqs) win = some (avg, (2, [0])) ∧
      ∀ n ∈ pyRange 2 (2 + 1), ∀ p, cvCandidate cvWitEnv (min 3 cvWitEnv.nSeqs) n = some p →
        p.1 ≤ avg) :=
  cvSelect_kfold_mean_argmax cvWitEnv 2 2 (2, [0]) (by norm_num [cvWitEnv]) (by rfl)

/-- C10: a successful non-degenerate `SelectorCV.select` run returns the
model fitted on the held-in portion of the final fold of the winning
candidate — in particular its training indices are not the full instance
list, so the winning state count is never refitted on all instances. -/
theorem cvSelect_last_fold_model (env : CvEnv) (minC maxC : ℕ) (m : CvModel)
    (h2 : 2 ≤ env.nSeqs) (hm : cvSelect env minC maxC = some m) :
    ∃ avg win lastFold, win ∈ pyRange minC (maxC + 1) ∧
      cvCandidate env (min 3 env.nSeqs) win = some (avg, m) ∧
      (kfolds (min 3 env.nSeqs) env.nSeqs).getLast? = some lastFold ∧
      m = (win, lastFold.1) ∧
      m.2 ≠ List.range env.nSeqs := by
  obtain ⟨avg, win, hwin, hce, _⟩ := cvSelect_some_elim env minC maxC m h2 hm
  obtain ⟨f, hf, hmf⟩ := cvCandidate_model env _ win _ hce
  have hkpos : 0 < min 3 env.nSeqs := by omega
  have hkle : min 3 env.nSeqs ≤ env.nSeqs := by omega
  obtain ⟨f2, hf2, hlen⟩ := kfoldsGo_last_train env.nSeqs (foldSizes (min 3 env.nSeqs) env.nSeqs) 0
    (by
      intro h0
      have := foldSizes_length (min 3 env.nSeqs) env.nSeqs
      rw [h0] at this
      simp at this
      omega)
    (foldSizes_pos _ _ hkpos hkle)
    (by rw [Nat.zero_add]; exact foldSizes_sum _ _ hkpos)
  have hff : f = f2 := by
    rw [kfolds] at hf
    rw [hf] at hf2
    exact Option.some_inj.mp hf2
  have hm2 : m = (win, f.1) := hmf
  refine ⟨avg, win, f, hwin, hce, hf, hm2, ?_⟩
  intro heq
  rw [hm2] at heq
  have hflen : f.1.length = env.nSeqs := by
    rw [show f.1 = List.range env.nSeqs from heq]
    exact List.length_range _
  rw [hff] at hflen
  omega

/-- Witness environment for C10. -/
def cvWitEnv10 : CvEnv where
  nSeqs := 2
  fitOk := fun _ _ => true
  scoreOf := fun _ _ _ => some 1
  selfFitOk := fun _ => false
  selfScore := fun _ => none

/-- Witness for C10 at a concrete run. -/
theorem cvSelect_last_fold_model_witness :
    ∃ avg win lastFold, win ∈ pyRange 2 (2 + 1) ∧
      cvCandidate cvWitEnv10 (min 3 cvWitEnv10.nSeqs) win = some (avg, (2, [0])) ∧
      (kfolds (min 3 cvWitEnv10.nSeqs) cvWitEnv10.nSeqs).getLast? = some lastFold ∧
      ((2 : ℕ), ([0] : List ℕ)) = (win, lastFold.1) ∧
      ((2 : ℕ), ([0] : List ℕ)).2 ≠ List.range cvWitEnv10.nSeqs :=
  cvSelect_last_fold_model cvWitEnv10 2 2 (2, [0]) (by norm_num [cvWitEnv10]) (by rfl)

/-- C8: for a word with exactly one training instance, `SelectorCV.select`
takes the degenerate branch: per candidate a single fit on all of the
word's data followed by a single self-score (train equals test) happens,
the first maximiser of these self-scores is returned (its model fitted on
the full instance list), and no fold splitting occurs — the result does not
depend on the fold-splitting oracles at all. -/
theorem cvSelect_single_instance (env : CvEnv) (minC maxC : ℕ) (h1 : env.nSeqs = 1) :
    cvSelect env minC maxC =
      (bestFirst qGt (degenScored env (pyRange minC (maxC + 1)))).map Prod.snd ∧
    (∀ env2 : CvEnv, env2.nSeqs = 1 → env2.selfFitOk = env.selfFitOk →
      env2.selfScore = env.selfScore → cvSelect env2 minC maxC = cvSelect env minC maxC) := by
  have hbranch : ∀ e : CvEnv, e.nSeqs = 1 →
      cvSelect e minC maxC = cvDegenLoop e (pyRange minC (maxC + 1)) none none := by
    intro e he
    simp [cvSelect, he]
  constructor
  · rw [hbranch env h1, cvDegenLoop_eq_scan, scanSelS_spec qGt qGt_trans qGt_negtrans]
    cases hb : bestFirst qGt (degenScored env (pyRange minC (maxC + 1))) with
    | none => rfl
    | some q => obtain ⟨t, y⟩ := q; rfl
  · intro env2 h2 hfit hscore
    rw [hbranch env h1, hbranch env2 h2]
    have hde : cvDegenEval env2 = cvDegenEval env := by
      funext n
      simp [cvDegenEval, hfit, hscore]
    have hn : env2.nSeqs = env.nSeqs := by rw [h1, h2]
    suffices h : ∀ (nums : List ℕ) (bs : Option ℚ) (bm : Option CvModel),
        cvDegenLoop env2 nums bs bm = cvDegenLoop env nums bs bm from h _ none none
    intro nums
    induction nums with
    | nil => intro bs bm; rfl
    | cons num rest ih =>
      intro bs bm
      cases hc : cvDegenEval env num with
      | none => simp [cvDegenLoop, hde, hc, ih bs bm]
      | some sc =>
        simp only [cvDegenLoop, hde, hc, hn]
        by_cases hb : betterO qGt sc bs = true
        · rw [if_pos hb, if_pos hb]
          exact ih _ _
        · rw [if_neg hb, if_neg hb]
          exact ih _ _

/-- Witness environment for C8: one instance; the fold oracles always fail,
underlining that the degenerate branch never consults them. -/
def cvWitEnv8 : CvEnv where
  nSeqs := 1
  fitOk := fun _ _ => false
  scoreOf := fun _ _ _ => none
  selfFitOk := fun _ => true
  selfScore := fun _ => some 1

/-- Witness for C8 at a concrete run. -/
theorem cvSelect_single_instance_witness :
    cvSelect cvWitEnv8 2 3 =
      (bestFirst qGt (degenScored cvWitEnv8 (pyRange 2 (3 + 1)))).map Prod.snd ∧
    (∀ env2 : CvEnv, env2.nSeqs = 1 → env2.selfFitOk = cvWitEnv8.selfFitOk →
      env2.selfScore = cvWitEnv8.selfScore → cvSelect env2 2 3 = cvSelect cvWitEnv8 2 3) :=
  cvSelect_single_instance cvWitEnv8 2 3 (by rfl)

/-! ## Embedding of `SelectorDIC.select`

For each candidate `num` the code iterates over every vocabulary word
`train`, fitting that word's own model and recording its self-likelihood in
`logP1`/`words` (a `ValueError` from fit or score is swallowed; the `model`
variable is updated only when the fit itself succeeds).  After *every* word
— not once per candidate — a second `try` computes, when more than one word
has been recorded, `score = logP1[this_word] - (1/(len(words)-1)) * logP2`
with `logP2` the sum of the recorded likelihoods of the words other than
the target, and compares it against the running best; a `KeyError` (the
target word not recorded yet) instead assigns `best_model = model`, the
most recently fitted model.  `best_score`, `best_model` and `model` persist
across candidates; `logP1` and `words` reset per candidate.  A model is
identified by `(num, word)`.  Reading the `model` variable before any fit
succeeded would be an uncaught `NameError`, modelled as `Except.error ()`
(it is unreachable: the reads are guarded by `len(words) > 1`). -/

abbrev DicModel := ℕ × String

structure DicEnv where
  vocab : List String
  thisWord : String
  fit : ℕ → String → Bool
  scoreSelf : ℕ → String → Option ℚ

/-- The first `try`/`except ValueError` of the word loop: fit `train`'s own
model (updating `model` on success) and record its self-likelihood. -/
def dicFitStep (env : DicEnv) (num : ℕ) (train : String)
    (logP1 : List (String × ℚ)) (words : List String) (mv : Option DicModel) :
    List (String × ℚ) × List String × Option DicModel :=
  if env.fit num train then
    match env.scoreSelf num train with
    | some v => (logP1 ++ [(train, v)], words ++ [train], some (num, train))
    | none => (logP1, words, some (num, train))
  else (logP1, words, mv)

/-- The second `try`/`except KeyError` of the word loop: compute the
incremental score when possible, `best_model = model` on `KeyError`;
`none` models the unreachable `NameError` of reading `model` unbound.
Every word `w` in `words` has an entry in `logP1` (they are appended
together), so the `logP1[word]` lookups inside the sum are modelled with
`getD`. -/
def dicCompareStep (env : DicEnv) (logP1 : List (String × ℚ)) (words : List String)
    (mv : Option DicModel) (bs : Option ℚ) (bm : Option DicModel) :
    Option (Option ℚ × Option DicModel) :=
  if words.length > 1 then
    match List.lookup env.thisWord logP1 with
    | none =>
      match mv with
      | none => none
      | some mdl => some (bs, some mdl)
    | some lt =>
      let logP2 := ((words.filter (fun w => w ≠ env.thisWord)).map
        (fun w => (List.lookup w logP1).getD 0)).sum
      let sc := lt - 1 / ((words.length : ℚ) - 1) * logP2
      if betterO qGt sc bs then
        match mv with
        | none => none
        | some mdl => some (some sc, some mdl)
      else some (bs, bm)
  else some (bs, bm)

/-- The `for train in self.words.keys()` loop for one candidate. -/
def dicWordLoop (env : DicEnv) (num : ℕ) :
    List String → List (String × ℚ) → List String → Option DicModel →
    Option ℚ → Option DicModel → Except Unit (Option ℚ × Option DicModel × Option DicModel)
  | [], _, _, mv, bs, bm => .ok (bs, bm, mv)
  | train :: rest, logP1, words, mv, bs, bm =>
    match dicFitStep env num train logP1 words mv with
    | (logP1', words', mv') =>
      match dicCompareStep env logP1' words' mv' bs bm with
      | none => .error ()
      | some (bs', bm') => dicWordLoop env num rest logP1' words' mv' bs' bm'

/-- The `for num in range(...)` loop; `logP1` and `words` reset per
candidate, `model`, `best_score`, `best_model` persist. -/
def dicNumLoop (env : DicEnv) :
    List ℕ → Option DicModel → Option ℚ → Option DicModel →
    Except Unit (Option ℚ × Option DicModel × Option DicModel)
  | [], mv, bs, bm => .ok (bs, bm, mv)
  | num :: rest, mv, bs, bm =>
    match dicWordLoop env num env.vocab [] [] mv bs bm with
    | .error e => .error e
    | .ok (bs', bm', mv') => dicNumLoop env rest mv' bs' bm'

/-- Embedding of `SelectorDIC.select` over `[minC, maxC]`. -/
def dicSelect (env : DicEnv) (minC maxC : ℕ) : Except Unit (Option DicModel) :=
  (dicNumLoop env (pyRange minC (maxC + 1)) none none none).map (fun r => r.2.1)

/-- Environment refuting C5: the target word "T" never fits, the other
word "O" always fits and scores, so at every candidate only one word is
recorded and the `len(words) > 1` guard never lets any assignment to
`best_model` happen. -/
def dicCex5Env : DicEnv where
  vocab := ["T", "O"]
  thisWord := "T"
  fit := fun _ w => w != "T"
  scoreSelf := fun _ _ => some 0

/-- C5 is false as stated: with fewer than 2 words fitted at a candidate
the code does not fall back to the most recently fit model — the guarded
block simply never runs — and `select` returns no model even though "O"'s
fit succeeded at every candidate. -/
theorem dicSelect_no_fallback_cex :
    dicSelect dicCex5Env 2 3 = .ok none ∧
    dicCex5Env.fit 2 "O" = true ∧
    dicCex5Env.scoreSelf 2 "O" = some 0 :=
  ⟨rfl, rfl, rfl⟩

/-- C5 (amended): the fallback assigning `best_model = model` (the most
recently fit model, without any score comparison) fires when *more than
one* word has been recorded at the candidate but the target's own
likelihood is missing (`KeyError`), and then `select` returns the most
recently fit model of the last candidate; when fewer than 2 words fit,
nothing is assigned, and `select` returns no model even when fits
succeed. -/
theorem dicSelect_keyerror_fallback (env1 env2 : DicEnv) (w1 w2 o : String)
    (minC maxC : ℕ) (hab : minC ≤ maxC)
    (h1v : env1.vocab = [w1, w2, env1.thisWord])
    (h1w1 : w1 ≠ env1.thisWord) (h1w2 : w2 ≠ env1.thisWord)
    (h1ft : ∀ n, env1.fit n env1.thisWord = false)
    (h1f : ∀ n, env1.fit n w1 = true ∧ env1.fit n w2 = true)
    (h1s : ∀ n, (env1.scoreSelf n w1).isSome = true ∧ (env1.scoreSelf n w2).isSome = true)
    (h2v : env2.vocab = [env2.thisWord, o])
    (h2ft : ∀ n, env2.fit n env2.thisWord = false)
    (h2f : ∀ n, env2.fit n o = true)
    (h2s : ∀ n, (env2.scoreSelf n o).isSome = true) :
    dicSelect env1 minC maxC = .ok (some (maxC, w2)) ∧
    dicSelect env2 minC maxC = .ok none := by
  constructor
  · have hround : ∀ (num : ℕ) (mv : Option DicModel) (bs : Option ℚ) (bm : Option DicModel),
        dicWordLoop env1 num env1.vocab [] [] mv bs bm =
          .ok (bs, some (num, w2), some (num, w2)) := by
      intro num mv bs bm
      obtain ⟨s1, hs1⟩ := Option.isSome_iff_exists.mp (h1s num).1
      obtain ⟨s2, hs2⟩ := Option.isSome_iff_exists.mp (h1s num).2
      have hlk1 : List.lookup env1.thisWord [(w1, s1)] = none := by
        simp [List.lookup, beq_eq_false_iff_ne.mpr (Ne.symm h1w1)]
      have hlk2 : List.lookup env1.thisWord [(w1, s1), (w2, s2)] = none := by
        simp [List.lookup, beq_eq_false_iff_ne.mpr (Ne.symm h1w1),
          beq_eq_false_iff_ne.mpr (Ne.symm h1w2)]
      rw [h1v]
      simp only [dicWordLoop, dicFitStep, (h1f num).1, (h1f num).2, h1ft num, hs1, hs2,
        if_true, Bool.false_eq_true, if_false, dicCompareStep, hlk1, hlk2,
        List.length_cons, List.length_singleton, List.length_nil]
      norm_num [hlk2]
    have hloop : ∀ (nums : List ℕ) (mv : Option DicModel) (bs : Option ℚ)
        (bm : Option DicModel) (last : ℕ), nums.getLast? = some last →
        dicNumLoop env1 nums mv bs bm = .ok (bs, some (last, w2), some (last, w2)) := by
      intro nums
      induction nums with
      | nil => intro mv bs bm last h; cases h
      | cons n rest ih =>
        intro mv bs bm last h
        cases hr : rest with
        | nil =>
          rw [hr] at h
          simp only [List.getLast?_singleton, Option.some.injEq] at h
          subst h
          simp only [dicNumLoop, hround]
        | cons n2 rest2 =>
          have hlast : rest.getLast? = some last := by
            rw [← getLast?_cons_ne n rest (by rw [hr]; simp), h]
          rw [← hr]
          simp only [dicNumLoop, hround]
          exact ih _ _ _ last hlast
    have hrange : (pyRange minC (maxC + 1)).getLast? = some maxC := by
      unfold pyRange
      have hsub : maxC + 1 - minC = (maxC - minC) + 1 := by omega
      rw [hsub, List.range_succ, List.map_append]
      simp only [List.map_cons, List.map_nil]
      rw [List.getLast?_concat]
      congr 1
      omega
    rw [dicSelect, hloop _ none none none maxC hrange]
    rfl
  · have hround : ∀ (num : ℕ) (mv : Option DicModel) (bs : Option ℚ) (bm : Option DicModel),
        ∃ mv', dicWordLoop env2 num env2.vocab [] [] mv bs bm = .ok (bs, bm, mv') := by
      intro num mv bs bm
      obtain ⟨so, hso⟩ := Option.isSome_iff_exists.mp (h2s num)
      refine ⟨some (num, o), ?_⟩
      rw [h2v]
      simp only [dicWordLoop, dicFitStep, h2ft num, h2f num, hso, if_true,
        Bool.false_eq_true, if_false, dicCompareStep, List.length_singleton,
        List.length_nil]
      norm_num
    have hloop : ∀ (nums : List ℕ) (mv : Option DicModel) (bs : Option ℚ)
        (bm : Option DicModel), ∃ mv', dicNumLoop env2 nums mv bs bm = .ok (bs, bm, mv') := by
      intro nums
      induction nums with
      | nil => intro mv bs bm; exact ⟨mv, rfl⟩
      | cons n rest ih =>
        intro mv bs bm
        obtain ⟨mv1, hmv1⟩ := hround n mv bs bm
        obtain ⟨mv2, hmv2⟩ := ih mv1 bs bm
        exact ⟨mv2, by simp only [dicNumLoop, hmv1]; exact hmv2⟩
    obtain ⟨mv', hmv'⟩ := hloop (pyRange minC (maxC + 1)) none none none
    rw [dicSelect, hmv']
    rfl

/-- DIC per the claim's words: the target's self-likelihood minus the mean
self-likelihood of the *other* vocabulary words whose own model fits and
scores at `num` (failed words excluded from the average). -/
def dicClaimDIC (env : DicEnv) (num : ℕ) : ℚ :=
  let others := (env.vocab.filter (fun w => w ≠ env.thisWord)).filter
    (fun w => env.fit num w && (env.scoreSelf num w).isSome)
  ((env.scoreSelf num env.thisWord).getD 0) -
    (others.map (fun w => (env.scoreSelf num w).getD 0)).sum / (others.length : ℚ)

/-- Environment refuting C4: three words, everything fits and scores.
At `num = 2` the incremental score right after "O1"
(`0 - (1/1)*(-10) = 10`) exceeds every complete-round DIC, so the code
keeps the model fitted at that moment — "O1"'s model at 2 states — while
the claim's DIC is maximal at `num = 3` (`DIC(3) = 4 > DIC(2) = 0`) and
would return the target's model. -/
def dicCex4Env : DicEnv where
  vocab := ["T", "O1", "O2"]
  thisWord := "T"
  fit := fun _ _ => true
  scoreSelf := fun n w =>
    some (if w = "T" then 0
          else if w = "O1" then (if n = 2 then -10 else -4)
          else (if n = 2 then 10 else -4))

/-- C4 is false as stated: the run returns the model of word "O1" (not the
target word's model) at state count 2, although the claim's DIC is larger
at state count 3. -/
theorem dicSelect_target_model_cex :
    dicSelect dicCex4Env 2 3 = .ok (some (2, "O1")) ∧
    ("O1" : String) ≠ dicCex4Env.thisWord ∧
    dicClaimDIC dicCex4Env 2 < dicClaimDIC dicCex4Env 3 := by
  refine ⟨?_, by decide, ?_⟩
  · simp [dicSelect, dicNumLoop, dicWordLoop, dicFitStep, dicCompareStep, dicCex4Env,
      pyRange, List.range_succ, betterO, qGt, List.lookup]
    try norm_num
    rfl
  · simp [dicClaimDIC, dicCex4Env]
    try norm_num

theorem option_getD_of_isSome {o : Option ℚ} (h : o.isSome = true) : o = some (o.getD 0) := by
  cases o
  · cases h
  · rfl

theorem lookup_cons_self (t : String) (v : ℚ) (l : List (String × ℚ)) :
    List.lookup t ((t, v) :: l) = some v := by
  simp [List.lookup]

theorem lookup_cons_ne (t u : String) (v : ℚ) (l : List (String × ℚ)) (h : u ≠ t) :
    List.lookup u ((t, v) :: l) = List.lookup u l := by
  simp [List.lookup, beq_eq_false_iff_ne.mpr h]

theorem lookup_pairs_self (sv : String → ℚ) :
    ∀ (l : List String) (u : String), u ∈ l →
      List.lookup u (l.map (fun x => (x, sv x))) = some (sv u) := by
  intro l
  induction l with
  | nil => intro u h; cases h
  | cons x rest ih =>
    intro u hu
    by_cases hux : u = x
    · subst hux
      simp [List.lookup]
    · have hbeq : (u == x) = false := beq_eq_false_iff_ne.mpr hux
      have hmem : u ∈ rest := by
        rcases List.mem_cons.mp hu with h | h
        · exact absurd h hux
        · exact h
      simp [List.lookup, hbeq, ih u hmem]

/-- The incremental scores of one candidate per the amended claim, written
as a recursion over the non-target words in iteration order: after the
`(cnt+1)`-st other word `w`, the score is the target's likelihood minus the
mean of the likelihoods of the other words seen so far, and the model at
stake is the most recently fitted one, `w`'s model. -/
def dicPrefixEvents (env : DicEnv) (num : ℕ) (lt : ℚ) :
    List String → ℚ → ℕ → List (ℚ × DicModel)
  | [], _, _ => []
  | w :: rest, acc, cnt =>
    (lt - 1 / ((cnt : ℚ) + 1) * (acc + (env.scoreSelf num w).getD 0), (num, w)) ::
      dicPrefixEvents env num lt rest (acc + (env.scoreSelf num w).getD 0) (cnt + 1)

/-- All incremental comparison events of a run, candidates in ascending
order. -/
def dicEvents (env : DicEnv) (minC maxC : ℕ) : List (ℚ × DicModel) :=
  (pyRange minC (maxC + 1)).flatMap (fun num =>
    dicPrefixEvents env num ((env.scoreSelf num env.thisWord).getD 0) env.vocab.tail 0 0)

/-- Invariant step for the all-success DIC run: after the target word and
the non-target prefix `pro` have been processed, running the word loop on
the remaining suffix performs exactly one best-score comparison per word,
with the incremental prefix scores of `dicPrefixEvents`; the `model`
variable always holds the most recent fit. -/
theorem dicWordLoop_all_success (env : DicEnv) (num : ℕ) (ltv : ℚ)
    (hfit : ∀ w, env.fit num w = true)
    (hscore : ∀ w, (env.scoreSelf num w).isSome = true) :
    ∀ (suf pro : List String) (m0 : DicModel) (bs : Option ℚ) (bm : Option DicModel),
      (∀ u ∈ pro, u ≠ env.thisWord) → (∀ u ∈ suf, u ≠ env.thisWord) →
      ∃ mvw : DicModel,
        dicWordLoop env num suf
            ((env.thisWord, ltv) :: pro.map (fun u => (u, (env.scoreSelf num u).getD 0)))
            (env.thisWord :: pro) (some m0) bs bm =
          .ok ((scanSelS qGt (dicPrefixEvents env num ltv suf
                ((pro.map (fun u => (env.scoreSelf num u).getD 0)).sum) pro.length)
              (bs, bm)).1,
            (scanSelS qGt (dicPrefixEvents env num ltv suf
                ((pro.map (fun u => (env.scoreSelf num u).getD 0)).sum) pro.length)
              (bs, bm)).2,
            some mvw) := by
  intro suf
  induction suf with
  | nil =>
    intro pro m0 bs bm hpro hsuf
    exact ⟨m0, rfl⟩
  | cons w rest ih =>
    intro pro m0 bs bm hpro hsuf
    have hw : w ≠ env.thisWord := hsuf w (List.mem_cons_self _ _)
    have hrestne : ∀ u ∈ rest, u ≠ env.thisWord :=
      fun u hu => hsuf u (List.mem_cons_of_mem _ hu)
    have hpro' : ∀ u ∈ pro ++ [w], u ≠ env.thisWord := by
      intro u hu
      rcases List.mem_append.mp hu with h | h
      · exact hpro u h
      · rw [List.mem_singleton.mp h]
        exact hw
    obtain ⟨vw, hvw⟩ := Option.isSome_iff_exists.mp (hscore w)
    have hfitstep : dicFitStep env num w
        ((env.thisWord, ltv) :: pro.map (fun u => (u, (env.scoreSelf num u).getD 0)))
        (env.thisWord :: pro) (some m0) =
        ((env.thisWord, ltv) :: (pro ++ [w]).map (fun u => (u, (env.scoreSelf num u).getD 0)),
          env.thisWord :: (pro ++ [w]), some (num, w)) := by
      rw [dicFitStep, if_pos (hfit w), hvw]
      simp [List.map_append, hvw]
    have hlen2 : (env.thisWord :: (pro ++ [w])).length > 1 := by
      simp only [List.length_cons, List.length_append, List.length_singleton]
      omega
    have hlkT : List.lookup env.thisWord
        ((env.thisWord, ltv) :: (pro ++ [w]).map (fun u => (u, (env.scoreSelf num u).getD 0)))
        = some ltv := lookup_cons_self _ _ _
    have hfil : List.filter (fun u => decide (u ≠ env.thisWord))
        (env.thisWord :: (pro ++ [w])) = pro ++ [w] := by
      rw [List.filter_cons]
      rw [if_neg (by simp)]
      exact List.filter_eq_self.mpr (fun u hu => by simpa using hpro' u hu)
    have hmapsum : ((pro ++ [w]).map (fun u => (List.lookup u
        ((env.thisWord, ltv) :: (pro ++ [w]).map
          (fun x => (x, (env.scoreSelf num x).getD 0)))).getD 0)).sum
        = (pro.map (fun u => (env.scoreSelf num u).getD 0)).sum + vw := by
      have hcongr : (pro ++ [w]).map (fun u => (List.lookup u
          ((env.thisWord, ltv) :: (pro ++ [w]).map
            (fun x => (x, (env.scoreSelf num x).getD 0)))).getD 0)
          = (pro ++ [w]).map (fun u => (env.scoreSelf num u).getD 0) := by
        apply List.map_congr_left
        intro u hu
        rw [lookup_cons_ne _ _ _ _ (hpro' u hu),
          lookup_pairs_self (fun x => (env.scoreSelf num x).getD 0) _ u hu]
        rfl
      rw [hcongr, List.map_append, List.sum_append]
      simp [hvw]
    have hlenq : ((env.thisWord :: (pro ++ [w])).length : ℚ) - 1 = (pro.length : ℚ) + 1 := by
      simp only [List.length_cons, List.length_append, List.length_singleton, List.length_nil]
      push_cast
      ring
    have hcmp : dicCompareStep env
        ((env.thisWord, ltv) :: (pro ++ [w]).map (fun u => (u, (env.scoreSelf num u).getD 0)))
        (env.thisWord :: (pro ++ [w])) (some (num, w)) bs bm =
        some (if betterO qGt (ltv - 1 / ((pro.length : ℚ) + 1) *
              ((pro.map (fun u => (env.scoreSelf num u).getD 0)).sum + vw)) bs = true
          then (some (ltv - 1 / ((pro.length : ℚ) + 1) *
              ((pro.map (fun u => (env.scoreSelf num u).getD 0)).sum + vw)), some (num, w))
          else (bs, bm)) := by
      rw [dicCompareStep, if_pos hlen2, hlkT]
      rw [hfil, hmapsum, hlenq]
      by_cases hb : betterO qGt (ltv - 1 / ((pro.length : ℚ) + 1) *
          ((pro.map (fun u => (env.scoreSelf num u).getD 0)).sum + vw)) bs = true
      · simp only [hb, if_true]
      · simp only [bool_false_of_not hb, Bool.false_eq_true, if_false]
    rw [dicWordLoop, hfitstep]
    simp only [hcmp]
    have hevents : dicPrefixEvents env num ltv (w :: rest)
        ((pro.map (fun u => (env.scoreSelf num u).getD 0)).sum) pro.length =
        (ltv - 1 / ((pro.length : ℚ) + 1) *
            ((pro.map (fun u => (env.scoreSelf num u).getD 0)).sum + vw), (num, w)) ::
          dicPrefixEvents env num ltv rest
            ((pro.map (fun u => (env.scoreSelf num u).getD 0)).sum + vw) (pro.length + 1) := by
      rw [dicPrefixEvents, hvw]
      simp
    have hsum' : (((pro ++ [w]).map (fun u => (env.scoreSelf num u).getD 0)).sum) =
        (pro.map (fun u => (env.scoreSelf num u).getD 0)).sum + vw := by
      rw [List.map_append, List.sum_append]
      simp [hvw]
    have hlen' : (pro ++ [w]).length = pro.length + 1 := by simp
    by_cases hb : betterO qGt (ltv - 1 / ((pro.length : ℚ) + 1) *
        ((pro.map (fun u => (env.scoreSelf num u).getD 0)).sum + vw)) bs = true
    · rw [if_pos hb]
      obtain ⟨mvw, hrec⟩ := ih (pro ++ [w]) (num, w)
        (some (ltv - 1 / ((pro.length : ℚ) + 1) *
          ((pro.map (fun u => (env.scoreSelf num u).getD 0)).sum + vw)))
        (some (num, w)) hpro' hrestne
      rw [hsum', hlen'] at hrec
      refine ⟨mvw, ?_⟩
      rw [hevents]
      simp only [scanSelS, hb, if_true]
      exact hrec
    · rw [if_neg hb]
      obtain ⟨mvw, hrec⟩ := ih (pro ++ [w]) (num, w) bs bm hpro' hrestne
      rw [hsum', hlen'] at hrec
      refine ⟨mvw, ?_⟩
      rw [hevents]
      simp only [scanSelS, hb, if_false]
      exact hrec

/-- One full all-success round: after the target word opens the round, the
suffix of other words generates exactly the incremental comparison
events. -/
theorem dicRound_all_success (env : DicEnv) (num : ℕ) (os : List String)
    (hv : env.vocab = env.thisWord :: os)
    (hnotin : env.thisWord ∉ os)
    (hfit : ∀ w, env.fit num w = true)
    (hscore : ∀ w, (env.scoreSelf num w).isSome = true) :
    ∀ (mv : Option DicModel) (bs : Option ℚ) (bm : Option DicModel),
      ∃ mvw : DicModel,
        dicWordLoop env num env.vocab [] [] mv bs bm =
          .ok ((scanSelS qGt (dicPrefixEvents env num
                ((env.scoreSelf num env.thisWord).getD 0) os 0 0) (bs, bm)).1,
            (scanSelS qGt (dicPrefixEvents env num
                ((env.scoreSelf num env.thisWord).getD 0) os 0 0) (bs, bm)).2,
            some mvw) := by
  intro mv bs bm
  obtain ⟨ltv, hltv⟩ := Option.isSome_iff_exists.mp (hscore env.thisWord)
  rw [hv]
  have hfitstep : dicFitStep env num env.thisWord [] [] mv =
      ([(env.thisWord, ltv)], [env.thisWord], some (num, env.thisWord)) := by
    rw [dicFitStep, if_pos (hfit env.thisWord), hltv]
    rfl
  rw [dicWordLoop, hfitstep]
  have hcmp1 : dicCompareStep env [(env.thisWord, ltv)] [env.thisWord]
      (some (num, env.thisWord)) bs bm = some (bs, bm) := by
    rw [dicCompareStep, if_neg (by simp)]
  simp only [hcmp1]
  have hpro : ∀ u ∈ ([] : List String), u ≠ env.thisWord := by
    intro u hu
    cases hu
  have hsuf : ∀ u ∈ os, u ≠ env.thisWord := by
    intro u hu he
    exact hnotin (he ▸ hu)
  obtain ⟨mvw, hrec⟩ := dicWordLoop_all_success env num ltv hfit hscore os []
    (num, env.thisWord) bs bm hpro hsuf
  simp only [List.map_nil, List.sum_nil, List.length_nil] at hrec
  refine ⟨mvw, ?_⟩
  simp only [hltv, Option.getD_some]
  exact hrec

/-- All-success characterisation of the candidate loop: the carried
`(best_score, best_model)` state is the strict-improvement scan of the
concatenated incremental events of all candidates. -/
theorem dicNumLoop_all_success (env : DicEnv) (os : List String)
    (hv : env.vocab = env.thisWord :: os)
    (hnotin : env.thisWord ∉ os)
    (hfit : ∀ n w, env.fit n w = true)
    (hscore : ∀ n w, (env.scoreSelf n w).isSome = true) :
    ∀ (nums : List ℕ) (mv : Option DicModel) (bs : Option ℚ) (bm : Option DicModel),
      ∃ mvo : Option DicModel,
        dicNumLoop env nums mv bs bm =
          .ok ((scanSelS qGt (nums.flatMap (fun num => dicPrefixEvents env num
                ((env.scoreSelf num env.thisWord).getD 0) os 0 0)) (bs, bm)).1,
            (scanSelS qGt (nums.flatMap (fun num => dicPrefixEvents env num
                ((env.scoreSelf num env.thisWord).getD 0) os 0 0)) (bs, bm)).2,
            mvo) := by
  intro nums
  induction nums with
  | nil =>
    intro mv bs bm
    exact ⟨mv, rfl⟩
  | cons n rest ih =>
    intro mv bs bm
    obtain ⟨mvw, hround⟩ := dicRound_all_success env n os hv hnotin (hfit n) (hscore n)
      mv bs bm
    obtain ⟨mvo, hrest⟩ := ih (some mvw)
      (scanSelS qGt (dicPrefixEvents env n
        ((env.scoreSelf n env.thisWord).getD 0) os 0 0) (bs, bm)).1
      (scanSelS qGt (dicPrefixEvents env n
        ((env.scoreSelf n env.thisWord).getD 0) os 0 0) (bs, bm)).2
    refine ⟨mvo, ?_⟩
    simp only [dicNumLoop, hround]
    rw [List.flatMap_cons, scanSelS_append]
    exact hrest

/-- C4 (amended): when every vocabulary word fits and scores successfully
at every candidate and the target word is first in iteration order,
`SelectorDIC.select` does not score each candidate once by the DIC formula;
instead, after each further word `w` of a candidate it compares the
*incremental* score `logL(target) - mean(logL of the other words seen so
far)` against the running best, and it returns the model fitted most
recently when the overall maximum incremental score was first achieved —
the model of the word `w` fitted at that moment (not necessarily the
target word's model). -/
theorem dicSelect_incremental_scan (env : DicEnv) (minC maxC : ℕ) (os : List String)
    (hv : env.vocab = env.thisWord :: os)
    (hnotin : env.thisWord ∉ os)
    (hfit : ∀ n w, env.fit n w = true)
    (hscore : ∀ n w, (env.scoreSelf n w).isSome = true) :
    dicSelect env minC maxC = .ok ((bestFirst qGt (dicEvents env minC maxC)).map Prod.snd) := by
  obtain ⟨mvo, hloop⟩ := dicNumLoop_all_success env os hv hnotin hfit hscore
    (pyRange minC (maxC + 1)) none none none
  rw [dicSelect, hloop]
  have htail : env.vocab.tail = os := by
    rw [hv]
    rfl
  simp only [dicEvents, htail]
  rw [scanSelS_spec qGt qGt_trans qGt_negtrans]
  cases hb : bestFirst qGt ((pyRange minC (maxC + 1)).flatMap (fun num =>
      dicPrefixEvents env num ((env.scoreSelf num env.thisWord).getD 0) os 0 0)) with
  | none => rfl
  | some q =>
    obtain ⟨t, y⟩ := q
    rfl

/-- Witness environment for C4 (amended). -/
def dicWit4Env : DicEnv where
  vocab := ["T", "O"]
  thisWord := "T"
  fit := fun _ _ => true
  scoreSelf := fun n w => some (if w = "T" then 0 else (n : ℚ))

/-- Witness for C4 (amended) at a concrete all-success run. -/
theorem dicSelect_incremental_scan_witness :
    dicSelect dicWit4Env 2 3 =
      .ok ((bestFirst qGt (dicEvents dicWit4Env 2 3)).map Prod.snd) :=
  dicSelect_incremental_scan dicWit4Env 2 3 ["O"] rfl (by decide)
    (fun n w => rfl) (fun n w => rfl)

/-- Witness environments for C5 (amended). -/
def dicWit5Env1 : DicEnv where
  vocab := ["A", "B", "T"]
  thisWord := "T"
  fit := fun _ w => w != "T"
  scoreSelf := fun _ _ => some 0

def dicWit5Env2 : DicEnv where
  vocab := ["T", "O"]
  thisWord := "T"
  fit := fun _ w => w != "T"
  scoreSelf := fun _ _ => some 0

/-- Witness for C5 (amended) at concrete runs. -/
theorem dicSelect_keyerror_fallback_witness :
    dicSelect dicWit5Env1 2 4 = .ok (some (4, "B")) ∧
    dicSelect dicWit5Env2 2 4 = .ok none :=
  dicSelect_keyerror_fallback dicWit5Env1 dicWit5Env2 "A" "B" "O" 2 4
    (by omega) rfl (by decide) (by decide) (fun n => rfl) (fun n => ⟨rfl, rfl⟩)
    (fun n => ⟨rfl, rfl⟩) rfl (fun n => rfl) (fun n => rfl) (fun n => rfl)

/-- Witness for C3 at a concrete run: `bicSelect bicWitEnv 2 3 = some 2`. -/
theorem bicSelect_min_over_evaluated_witness :
    2 ∈ bicEvaluated bicWitEnv 2 3 ∧
    (∀ n ∈ bicEvaluated bicWitEnv 2 3, ∃ logL row, candLogL bicWitEnv n = some logL ∧
       bicWitEnv.X.head? = some row ∧
       candAttempt bicWitEnv n =
         some (-2 * logL + ((n * (n - 1) + 2 * row.length * n : ℕ) : ℚ) * bicWitEnv.lnN)) ∧
    (∀ n ∈ bicEvaluated bicWitEnv 2 3, ∀ sm sn, candAttempt bicWitEnv 2 = some sm →
       candAttempt bicWitEnv n = some sn → sm ≤ sn) :=
  bicSelect_min_over_evaluated bicWitEnv 2 3 2 (by
    norm_num [bicSelect, bicLoop, pyRange, candAttempt, candLogL, bicWitEnv, betterO, qLt,
      List.range_succ])

end AslRec
